import Mathlib

/-!
Shallow embedding of the DMS-10 configuration scraper (`src/console.rs`,
`src/fetcher.rs`, `src/main.rs`).  Bytes are modelled as `Nat` (`\n` = 10,
`\r` = 13, space = 32).  The asynchronous transport is modelled as an explicit
trace of read events consumed by the console loop, and a per-send success flag
for the write half.
-/

namespace DMS10

/-- Byte value of the line-feed character. -/
def LF : Nat := 10

/-- Byte value of the carriage-return character. -/
def CR : Nat := 13

/-- `LOOKBACK` from `console.rs`: number of buffer bytes included in stall
warnings. -/
def LOOKBACK : Nat := 100

/-- `HASH` from `main.rs`: the header marker string `"  # "` as bytes. -/
def HASH : List Nat := [32, 32, 35, 32]

/-- One result of awaiting the inner read loop, as seen by
`run_until_human_prompt`: either `read_buf` returned this chunk of bytes
(the empty chunk is `count == 0`, i.e. EOF), or the read itself failed, or
the 5-second `tokio::time::timeout` elapsed first. -/
inductive ReadEvent where
  | recv (data : List Nat)
  | fail
  | timeout
deriving DecidableEq

/-- The two error exits of `run_until_human_prompt`: `bail!("subprocess
returned EOF")` and the propagated read error (context "reading from
socket"). -/
inductive RunError where
  | eof
  | readErr
deriving DecidableEq

/-- Content of one stall warning: the expected prompt and the trailing
bytes of the buffer shown next to it. -/
structure Warning where
  prompt : List Nat
  tail : List Nat
deriving DecidableEq

/-- The slice `self.buffer[(len - min(len, LOOKBACK))..]` logged by a stall
warning in `run_until_human_prompt`. -/
def lookback (buffer : List Nat) : List Nat :=
  buffer.drop (buffer.length - min buffer.length LOOKBACK)

/-- The warning emitted when the timeout elapses: it names the expected
prompt and the lookback slice of the current buffer. -/
def mkWarning (prompt buffer : List Nat) : Warning :=
  ⟨prompt, lookback buffer⟩

/-- `Console::check_buffer_tail`: for each of the bytes `\n` and `\r`,
build `needle = newline ++ expected_prompt` and test whether the buffer
ends with it. -/
def check_buffer_tail (buffer prompt : List Nat) : Bool :=
  (LF :: prompt).isSuffixOf buffer || (CR :: prompt).isSuffixOf buffer

/-- Outcome of one call to `run_until_human_prompt` on a finite event
trace: a successful drain (returned bytes, buffer left behind, unconsumed
events, warnings logged), an error exit (buffer retained), or `pending`
when the trace ran out while the call was still waiting. -/
inductive RunOutcome where
  | ok (drained : List Nat) (buffer : List Nat) (rest : List ReadEvent)
      (warnings : List Warning)
  | err (e : RunError) (buffer : List Nat) (warnings : List Warning)
  | pending (buffer : List Nat) (warnings : List Warning)
deriving DecidableEq

/-- `Console::run_until_human_prompt` together with the inner
`read_until_prompt`/`read_into_buffer` loop, driven by an explicit trace of
read results.  A `timeout` event logs a warning and keeps waiting; a `recv`
of zero bytes bails with EOF; a failed read propagates as an error; after
every successful read the buffer tail is checked, and on a match the whole
buffer is taken (`std::mem::take`), leaving it empty. -/
def run_until_human_prompt (prompt : List Nat) (buffer : List Nat)
    (warnings : List Warning) : List ReadEvent → RunOutcome
  | [] => .pending buffer warnings
  | .timeout :: rest =>
      run_until_human_prompt prompt buffer
        (warnings ++ [mkWarning prompt buffer]) rest
  | .fail :: _ => .err .readErr buffer warnings
  | .recv data :: rest =>
      if data = [] then .err .eof buffer warnings
      else
        let buffer' := buffer ++ data
        if check_buffer_tail buffer' prompt then .ok buffer' [] rest warnings
        else run_until_human_prompt prompt buffer' warnings rest

/-- The error exit of `Console::send` (context "writing to child"). -/
inductive SendError where
  | transportWrite
deriving DecidableEq

/-- The `Console` state visible to the claims: its accumulated output
buffer. -/
structure Console where
  buffer : List Nat
deriving DecidableEq

/-- `Console::send`: write the data (the environment says whether the
underlying write succeeds); on success append the data to the buffer to
model local echo, on failure return the error with the console
untouched. -/
def send (c : Console) (data : List Nat) : Bool → Console × Option SendError
  | true => ({ buffer := c.buffer ++ data }, none)
  | false => (c, some .transportWrite)

/-- Claim C1: the tail check succeeds iff the buffer ends with `"\n" ++ P`
or `"\r" ++ P`; a buffer equal to the prompt alone, and more generally a
buffer ending in `b ++ P` for any byte `b` other than line feed and
carriage return, does not match. -/
theorem check_buffer_tail_spec (B P : List Nat) :
    (check_buffer_tail B P = true ↔ ((LF :: P) <:+ B ∨ (CR :: P) <:+ B))
    ∧ check_buffer_tail P P = false
    ∧ (∀ b : Nat, b ≠ LF → b ≠ CR → (b :: P) <:+ B →
        check_buffer_tail B P = false) := by
  have hiff : ∀ B' : List Nat, check_buffer_tail B' P = true ↔
      ((LF :: P) <:+ B' ∨ (CR :: P) <:+ B') := by
    intro B'
    simp [check_buffer_tail]
  refine ⟨hiff B, ?_, ?_⟩
  · rw [← Bool.not_eq_true, hiff P]
    rintro (h | h)
    · have := h.length_le
      simp at this
    · have := h.length_le
      simp at this
  · intro b hb10 hb13 hsuf
    rw [← Bool.not_eq_true, hiff B]
    rintro (h | h)
    · have := (List.suffix_or_suffix_of_suffix hsuf h).elim
        (fun h' => h'.eq_of_length (by simp))
        (fun h' => (h'.eq_of_length (by simp)).symm)
      exact hb10 (by injection this)
    · have := (List.suffix_or_suffix_of_suffix hsuf h).elim
        (fun h' => h'.eq_of_length (by simp))
        (fun h' => (h'.eq_of_length (by simp)).symm)
      exact hb13 (by injection this)

/-- Witness for C1: a buffer ending in the prompt preceded by the byte `B`
(66), which is neither line feed nor carriage return, fails the check. -/
theorem check_buffer_tail_spec_witness :
    check_buffer_tail [66, 65] [65] = false :=
  (check_buffer_tail_spec [66, 65] [65]).2.2 66 (by decide) (by decide)
    ⟨[], rfl⟩

/-- Claim C3: `send` appends exactly the sent bytes to the buffer when the
underlying write succeeds, and on a failed write it returns the transport
error with the buffer (indeed the whole console) unchanged. -/
theorem send_spec (c : Console) (data : List Nat) :
    send c data true = ({ buffer := c.buffer ++ data }, none)
    ∧ (send c data false).1.buffer = c.buffer
    ∧ (send c data false).2 = some SendError.transportWrite := by
  refine ⟨?_, ?_, ?_⟩ <;> simp [send]

/-- Claim C10: the stall warning's lookback slice starts at the in-bounds
index `len - min len LOOKBACK`, is a suffix of the buffer, and has length
`min len LOOKBACK` — in particular the construction is total for every
buffer length, including lengths below the 100-byte lookback. -/
theorem lookback_safe (buffer : List Nat) :
    buffer.length - min buffer.length LOOKBACK ≤ buffer.length
    ∧ lookback buffer <:+ buffer
    ∧ (lookback buffer).length = min buffer.length LOOKBACK := by
  refine ⟨Nat.sub_le _ _, List.drop_suffix _ _, ?_⟩
  rw [lookback, List.length_drop]
  omega

/-- The bytes delivered by the successful reads of an event trace, in
order: this is exactly what the read loop appends to the buffer. -/
def chunkBytes : List ReadEvent → List Nat
  | [] => []
  | .recv data :: rest => data ++ chunkBytes rest
  | _ :: rest => chunkBytes rest

theorem run_ok_characterization (prompt : List Nat) :
    ∀ (events : List ReadEvent) (buffer : List Nat) (ws warnings : List Warning)
      (d b : List Nat) (r : List ReadEvent),
      run_until_human_prompt prompt buffer ws events = .ok d b r warnings →
      b = [] ∧ check_buffer_tail d prompt = true
        ∧ ∃ consumed, events = consumed ++ r ∧ d = buffer ++ chunkBytes consumed := by
  intro events
  induction events with
  | nil =>
    intro buffer ws warnings d b r h
    simp [run_until_human_prompt] at h
  | cons ev rest ih =>
    intro buffer ws warnings d b r h
    match ev with
    | .timeout =>
      rw [run_until_human_prompt] at h
      obtain ⟨hb, hc, consumed, hsplit, hd⟩ := ih _ _ _ _ _ _ h
      exact ⟨hb, hc, .timeout :: consumed, by simp [hsplit], by simpa using hd⟩
    | .fail =>
      rw [run_until_human_prompt] at h
      cases h
    | .recv data =>
      rw [run_until_human_prompt] at h
      by_cases hdata : data = []
      · simp [hdata] at h
      · simp only [if_neg hdata] at h
        by_cases hchk : check_buffer_tail (buffer ++ data) prompt
        · simp only [if_pos hchk] at h
          cases h
          exact ⟨rfl, hchk, [.recv data], by simp [chunkBytes]⟩
        · simp only [if_neg hchk] at h
          obtain ⟨hb, hc, consumed, hsplit, hd⟩ := ih _ _ _ _ _ _ h
          exact ⟨hb, hc, .recv data :: consumed, by simp [hsplit],
            by simp [chunkBytes, hd]⟩

theorem run_err_characterization (prompt : List Nat) :
    ∀ (events : List ReadEvent) (buffer : List Nat) (ws warnings : List Warning)
      (e : RunError) (b : List Nat),
      run_until_human_prompt prompt buffer ws events = .err e b warnings →
      ∃ consumed, b = buffer ++ chunkBytes consumed := by
  intro events
  induction events with
  | nil =>
    intro buffer ws warnings e b h
    simp [run_until_human_prompt] at h
  | cons ev rest ih =>
    intro buffer ws warnings e b h
    match ev with
    | .timeout =>
      rw [run_until_human_prompt] at h
      exact ih _ _ _ _ _ h
    | .fail =>
      rw [run_until_human_prompt] at h
      cases h
      exact ⟨[], by simp [chunkBytes]⟩
    | .recv data =>
      rw [run_until_human_prompt] at h
      by_cases hdata : data = []
      · simp only [if_pos hdata] at h
        cases h
        exact ⟨[], by simp [chunkBytes]⟩
      · simp only [if_neg hdata] at h
        by_cases hchk : check_buffer_tail (buffer ++ data) prompt
        · simp only [if_pos hchk] at h
          cases h
        · simp only [if_neg hchk] at h
          obtain ⟨consumed, hb⟩ := ih _ _ _ _ _ h
          exact ⟨.recv data :: consumed, by simp [chunkBytes, hb]⟩

theorem run_pending_characterization (prompt : List Nat) :
    ∀ (events : List ReadEvent) (buffer : List Nat) (ws warnings : List Warning)
      (b : List Nat),
      run_until_human_prompt prompt buffer ws events = .pending b warnings →
      ∃ consumed, b = buffer ++ chunkBytes consumed := by
  intro events
  induction events with
  | nil =>
    intro buffer ws warnings b h
    rw [run_until_human_prompt] at h
    cases h
    exact ⟨[], by simp [chunkBytes]⟩
  | cons ev rest ih =>
    intro buffer ws warnings b h
    match ev with
    | .timeout =>
      rw [run_until_human_prompt] at h
      exact ih _ _ _ _ h
    | .fail =>
      rw [run_until_human_prompt] at h
      cases h
    | .recv data =>
      rw [run_until_human_prompt] at h
      by_cases hdata : data = []
      · simp [hdata] at h
      · simp only [if_neg hdata] at h
        by_cases hchk : check_buffer_tail (buffer ++ data) prompt
        · simp only [if_pos hchk] at h
          cases h
        · simp only [if_neg hchk] at h
          obtain ⟨consumed, hb⟩ := ih _ _ _ _ h
          exact ⟨.recv data :: consumed, by simp [chunkBytes, hb]⟩

/-- Claim C2: when `run_until_human_prompt` returns successfully, the
bytes it returns are exactly the buffer contents at entry (which include
locally echoed sent bytes) followed by every chunk read during the call,
the internal buffer is left empty, and draining is exclusive to a
successful match: on an error exit or while still waiting, the buffer
retains the full accumulation instead of being drained. -/
theorem run_until_human_prompt_drain_spec (prompt buffer : List Nat)
    (ws : List Warning) (events : List ReadEvent) :
    (∀ d b r warnings,
      run_until_human_prompt prompt buffer ws events = .ok d b r warnings →
      b = [] ∧ ∃ consumed, events = consumed ++ r
        ∧ d = buffer ++ chunkBytes consumed)
    ∧ (∀ e b warnings,
      run_until_human_prompt prompt buffer ws events = .err e b warnings →
      ∃ consumed, b = buffer ++ chunkBytes consumed)
    ∧ (∀ b warnings,
      run_until_human_prompt prompt buffer ws events = .pending b warnings →
      ∃ consumed, b = buffer ++ chunkBytes consumed) := by
  refine ⟨?_, ?_, ?_⟩
  · intro d b r warnings h
    obtain ⟨hb, _, consumed, hsplit, hd⟩ :=
      run_ok_characterization prompt events buffer ws warnings d b r h
    exact ⟨hb, consumed, hsplit, hd⟩
  · intro e b warnings h
    exact run_err_characterization prompt events buffer ws warnings e b h
  · intro b warnings h
    exact run_pending_characterization prompt events buffer ws warnings b h

/-- Witness for C2: a concrete call whose single read completes the
prompt; the returned bytes are the echoed buffer plus the read chunk and
the console buffer is left empty. -/
theorem run_until_human_prompt_drain_spec_witness :
    [ReadEvent.recv [10, 82]] = [ReadEvent.recv [10, 82]] ++ ([] : List ReadEvent)
    ∧ ([97] : List Nat) ++ chunkBytes [ReadEvent.recv [10, 82]] = [97, 10, 82] := by
  have h :=
    ((run_until_human_prompt_drain_spec [82] [97] [] [.recv [10, 82]]).1
      [97, 10, 82] [] [] [] (by decide))
  obtain ⟨-, consumed, hsplit, hd⟩ := h
  have hc : consumed = [ReadEvent.recv [10, 82]] := by
    have := hsplit
    simpa using this.symm
  refine ⟨by simp, ?_⟩
  rw [← hc, ← hd]

/-- Claim C4: the inactivity timeout never makes `run_until_human_prompt`
return an error — any number of consecutive timeout expiries only appends
that many warnings (each naming the expected prompt and the lookback tail
of the buffer) and the wait continues exactly as before; an error exit
happens only at a failed read or at a zero-byte read (remote EOF). -/
theorem run_until_human_prompt_timeout_advisory (prompt buffer : List Nat)
    (ws : List Warning) :
    (∀ (n : Nat) (evs : List ReadEvent),
      run_until_human_prompt prompt buffer ws
          (List.replicate n ReadEvent.timeout ++ evs)
        = run_until_human_prompt prompt buffer
            (ws ++ List.replicate n (mkWarning prompt buffer)) evs)
    ∧ (∀ (evs : List ReadEvent) (e : RunError) (b : List Nat)
        (warnings : List Warning),
      run_until_human_prompt prompt buffer ws evs = .err e b warnings →
      ∃ pre rest,
        (evs = pre ++ ReadEvent.fail :: rest ∧ e = RunError.readErr)
        ∨ (evs = pre ++ ReadEvent.recv [] :: rest ∧ e = RunError.eof)) := by
  constructor
  · intro n
    induction n generalizing ws with
    | zero => simp
    | succ m ih =>
      intro evs
      rw [List.replicate_succ, List.cons_append, run_until_human_prompt, ih]
      simp [List.replicate_succ, List.append_assoc]
  · intro evs
    induction evs generalizing buffer ws with
    | nil =>
      intro e b warnings h
      simp [run_until_human_prompt] at h
    | cons ev rest ih =>
      intro e b warnings h
      match ev with
      | .timeout =>
        rw [run_until_human_prompt] at h
        obtain ⟨pre, rest', hdisj⟩ := ih _ _ _ _ _ h
        refine ⟨.timeout :: pre, rest', ?_⟩
        rcases hdisj with ⟨hsplit, he⟩ | ⟨hsplit, he⟩
        · exact Or.inl ⟨by simp [hsplit], he⟩
        · exact Or.inr ⟨by simp [hsplit], he⟩
      | .fail =>
        rw [run_until_human_prompt] at h
        cases h
        exact ⟨[], rest, Or.inl ⟨rfl, rfl⟩⟩
      | .recv data =>
        rw [run_until_human_prompt] at h
        by_cases hdata : data = []
        · simp only [if_pos hdata] at h
          cases h
          exact ⟨[], rest, Or.inr ⟨by simp [hdata], rfl⟩⟩
        · simp only [if_neg hdata] at h
          by_cases hchk : check_buffer_tail (buffer ++ data) prompt
          · simp only [if_pos hchk] at h
            cases h
          · simp only [if_neg hchk] at h
            obtain ⟨pre, rest', hdisj⟩ := ih _ _ _ _ _ h
            refine ⟨.recv data :: pre, rest', ?_⟩
            rcases hdisj with ⟨hsplit, he⟩ | ⟨hsplit, he⟩
            · exact Or.inl ⟨by simp [hsplit], he⟩
            · exact Or.inr ⟨by simp [hsplit], he⟩

/-- Witness for C4: a trace whose only event is a failed read produces the
read error, located at that event. -/
theorem run_until_human_prompt_timeout_advisory_witness :
    ∃ pre rest,
      ([ReadEvent.fail] = pre ++ ReadEvent.fail :: rest
        ∧ RunError.readErr = RunError.readErr)
      ∨ ([ReadEvent.fail] = pre ++ ReadEvent.recv [] :: rest
        ∧ RunError.readErr = RunError.eof) :=
  (run_until_human_prompt_timeout_advisory [80] [] []).2
    [ReadEvent.fail] RunError.readErr [] [] (by decide)

/-- `buffer.split(|&byte| byte == b'\n')` from `fetch_and_write`: split the
accumulated bytes on line-feed bytes; a buffer with `n` line feeds yields
`n + 1` line slices (the empty buffer yields one empty line). -/
def splitLines : List Nat → List (List Nat)
  | [] => [[]]
  | b :: rest =>
      if b = LF then [] :: splitLines rest
      else (b :: (splitLines rest).headD []) :: (splitLines rest).tail

/-- The per-line cleanup loops of `fetch_and_write`: repeatedly drop a
leading `\r`, then repeatedly drop a trailing `\r`. -/
def stripCR (line : List Nat) : List Nat :=
  ((line.dropWhile (fun b => b == CR)).reverse.dropWhile
    (fun b => b == CR)).reverse

/-- Rejoin line slices with a line-feed byte between consecutive slices;
inverse of `splitLines`. -/
def joinLines : List (List Nat) → List Nat
  | [] => []
  | [l] => l
  | l :: ls => l ++ LF :: joinLines ls

/-- The full normalization of step 2 in `fetch_and_write`: split on line
feeds and strip leading/trailing carriage returns from every line. -/
def normalizeLines (buffer : List Nat) : List (List Nat) :=
  (splitLines buffer).map stripCR

theorem splitLines_ne_nil (l : List Nat) : splitLines l ≠ [] := by
  cases l with
  | nil => simp [splitLines]
  | cons b rest =>
    by_cases hb : b = LF <;> simp [splitLines, hb]

theorem splitLines_headD_isPre (l : List Nat) :
    (splitLines l).headD [] <+: l := by
  induction l with
  | nil => simp [splitLines]
  | cons b rest ih =>
    by_cases hb : b = LF
    · simp [splitLines, hb]
    · simpa [splitLines, hb] using ih

theorem mem_splitLines_contig (l m : List Nat) (hm : m ∈ splitLines l) :
    m <:+: l := by
  induction l generalizing m with
  | nil =>
    simp [splitLines] at hm
    simp [hm]
  | cons b rest ih =>
    by_cases hb : b = LF
    · rw [splitLines, if_pos hb] at hm
      rcases List.mem_cons.mp hm with rfl | hm'
      · exact ⟨[], b :: rest, rfl⟩
      · exact List.infix_cons (ih m hm')
    · rw [splitLines, if_neg hb] at hm
      rcases List.mem_cons.mp hm with rfl | hm'
      · exact (List.cons_prefix_cons.mpr
          ⟨rfl, splitLines_headD_isPre rest⟩).isInfix
      · exact List.infix_cons (ih m (List.mem_of_mem_tail hm'))

theorem joinLines_splitLines (buffer : List Nat) :
    joinLines (splitLines buffer) = buffer := by
  induction buffer with
  | nil => rfl
  | cons b rest ih =>
    by_cases hb : b = LF
    · subst hb
      rw [splitLines, if_pos rfl]
      cases hsp : splitLines rest with
      | nil => exact absurd hsp (splitLines_ne_nil rest)
      | cons a ls =>
        rw [hsp] at ih
        simpa [joinLines] using ih
    · rw [splitLines, if_neg hb]
      cases hsp : splitLines rest with
      | nil => exact absurd hsp (splitLines_ne_nil rest)
      | cons a ls =>
        rw [hsp] at ih
        cases ls with
        | nil =>
          simp only [joinLines] at ih
          simp [joinLines, ih]
        | cons c ls2 =>
          simp only [joinLines] at ih ⊢
          simp [← ih]

theorem takeWhile_CR_replicate (l : List Nat) :
    ∃ n, l.takeWhile (fun b => b == CR) = List.replicate n CR := by
  refine ⟨(l.takeWhile (fun b => b == CR)).length, ?_⟩
  apply List.eq_replicate_of_mem
  intro x hx
  have := List.mem_takeWhile_imp hx
  simpa using this

theorem dropWhile_eq_stripCR_append (l : List Nat) :
    ∃ b, l.dropWhile (fun c => c == CR) = stripCR l ++ List.replicate b CR := by
  set d := l.dropWhile (fun c => c == CR) with hd
  obtain ⟨n, hn⟩ := takeWhile_CR_replicate d.reverse
  refine ⟨n, ?_⟩
  have hsplit2 := List.takeWhile_append_dropWhile (fun c => c == CR) d.reverse
  have := congrArg List.reverse hsplit2
  rw [List.reverse_append, List.reverse_reverse] at this
  calc d = (d.reverse.dropWhile (fun c => c == CR)).reverse
      ++ (d.reverse.takeWhile (fun c => c == CR)).reverse := this.symm
    _ = _ := by
      rw [stripCR, ← hd, hn, List.reverse_replicate]

theorem stripCR_decomposition (l : List Nat) :
    ∃ a b, l = List.replicate a CR ++ stripCR l ++ List.replicate b CR := by
  obtain ⟨b, hdeq⟩ := dropWhile_eq_stripCR_append l
  obtain ⟨n, hn⟩ := takeWhile_CR_replicate l
  refine ⟨n, b, ?_⟩
  calc l = l.takeWhile (fun c => c == CR)
      ++ l.dropWhile (fun c => c == CR) :=
        (List.takeWhile_append_dropWhile _ l).symm
    _ = _ := by rw [hn, hdeq, List.append_assoc]

theorem head_dropWhile_ne_CR (l : List Nat) (x : Nat)
    (h : (l.dropWhile (fun b => b == CR)).head? = some x) : x ≠ CR := by
  have hnot := List.head?_dropWhile_not (fun b => b == CR) l
  rw [h] at hnot
  simpa using hnot

theorem stripCR_head (l : List Nat) : (stripCR l).head? ≠ some CR := by
  obtain ⟨b, hdeq⟩ := dropWhile_eq_stripCR_append l
  cases hs : stripCR l with
  | nil => simp
  | cons x t =>
    rw [hs] at hdeq
    have hx : (l.dropWhile (fun c => c == CR)).head? = some x := by
      rw [hdeq]
      simp
    have := head_dropWhile_ne_CR l x hx
    simp [this]

theorem stripCR_getLast (l : List Nat) : (stripCR l).getLast? ≠ some CR := by
  rw [List.getLast?_eq_head?_reverse]
  rw [stripCR, List.reverse_reverse]
  intro h
  exact head_dropWhile_ne_CR _ CR h rfl

/-- Claim C5: `splitLines` cuts the buffer exactly at line-feed bytes
(rejoining the slices with line feeds restores the buffer), and per line
the carriage-return stripping removes precisely a leading run and a
trailing run of `\r` bytes — the stripped line neither starts nor ends
with `\r`, the interior is untouched, and it remains a contiguous subslice
of the original buffer. -/
theorem normalize_lines_spec (buffer : List Nat) :
    joinLines (splitLines buffer) = buffer
    ∧ normalizeLines buffer = (splitLines buffer).map stripCR
    ∧ ∀ line ∈ splitLines buffer,
        (∃ a b, line
          = List.replicate a CR ++ stripCR line ++ List.replicate b CR)
        ∧ (stripCR line).head? ≠ some CR
        ∧ (stripCR line).getLast? ≠ some CR
        ∧ stripCR line <:+: buffer := by
  refine ⟨joinLines_splitLines buffer, rfl, ?_⟩
  intro line hline
  obtain ⟨a, b, hdec⟩ := stripCR_decomposition line
  refine ⟨⟨a, b, hdec⟩, stripCR_head line, stripCR_getLast line, ?_⟩
  have hmid : stripCR line <:+: line :=
    ⟨List.replicate a CR, List.replicate b CR, hdec.symm⟩
  exact hmid.trans (mem_splitLines_contig buffer line hline)

/-- Witness for C5: a concrete line made of `\r A \r\r` inside a
two-line buffer strips to `A` and stays a subslice of the buffer. -/
theorem normalize_lines_spec_witness :
    (∃ a b, [13, 65, 13, 13]
      = List.replicate a CR ++ stripCR [13, 65, 13, 13] ++ List.replicate b CR)
    ∧ (stripCR [13, 65, 13, 13]).head? ≠ some CR
    ∧ (stripCR [13, 65, 13, 13]).getLast? ≠ some CR
    ∧ stripCR [13, 65, 13, 13] <:+: [13, 65, 13, 13, 10, 66] :=
  (normalize_lines_spec [13, 65, 13, 13, 10, 66]).2.2 [13, 65, 13, 13]
    (by decide)

/-- The header-trimming step of `fetch_and_write`: find the position of
the first line that starts with the `"  # "` marker and drain everything
before it; when no line matches, leave the list alone. -/
def trimHeader (lines : List (List Nat)) : List (List Nat) :=
  match lines.findIdx? (fun line => HASH.isPrefixOf line) with
  | some first_hash => lines.drop first_hash
  | none => lines

theorem findIdx?_some_split (p : List Nat → Bool) :
    ∀ (lines : List (List Nat)) (i : Nat),
      lines.findIdx? p = some i →
      ∃ pre first suf, lines = pre ++ first :: suf ∧ pre.length = i
        ∧ (∀ l ∈ pre, p l = false) ∧ p first = true
        ∧ lines.drop i = first :: suf := by
  intro lines
  induction lines with
  | nil =>
    intro i h
    simp at h
  | cons a rest ih =>
    intro i h
    rw [List.findIdx?_cons] at h
    by_cases hp : p a
    · rw [if_pos hp] at h
      cases h
      exact ⟨[], a, rest, by simp, rfl, by simp, hp, rfl⟩
    · rw [if_neg hp, List.findIdx?_succ] at h
      match hrest : rest.findIdx? p with
      | none => rw [hrest] at h; cases h
      | some j =>
        rw [hrest] at h
        cases h
        obtain ⟨pre, first, suf, hsplit, hlen, hpre, hfirst, hdrop⟩ :=
          ih j hrest
        refine ⟨a :: pre, first, suf, by simp [hsplit], by simp [hlen], ?_,
          hfirst, ?_⟩
        · intro l hl
          rcases List.mem_cons.mp hl with rfl | hl'
          · simpa using hp
          · exact hpre l hl'
        · simpa using hdrop

/-- Claim C6: if no line starts with the `"  # "` marker the line list is
unchanged; otherwise everything before the first marked line is discarded
and that line plus everything after it is kept in order. -/
theorem trimHeader_spec (lines : List (List Nat)) :
    ((∀ l ∈ lines, ¬ HASH <+: l) → trimHeader lines = lines)
    ∧ ((∃ l ∈ lines, HASH <+: l) →
        ∃ pre first suf, lines = pre ++ first :: suf
          ∧ (∀ l ∈ pre, ¬ HASH <+: l)
          ∧ HASH <+: first
          ∧ trimHeader lines = first :: suf) := by
  constructor
  · intro hall
    have hnone : lines.findIdx? (fun line => HASH.isPrefixOf line) = none := by
      rw [List.findIdx?_eq_none_iff]
      intro l hl
      rw [← Bool.not_eq_true, List.isPrefixOf_iff_prefix]
      exact hall l hl
    rw [trimHeader, hnone]
  · intro hex
    match hfind : lines.findIdx? (fun line => HASH.isPrefixOf line) with
    | none =>
      rw [List.findIdx?_eq_none_iff] at hfind
      obtain ⟨l, hl, hp⟩ := hex
      have := hfind l hl
      rw [← List.isPrefixOf_iff_prefix] at hp
      simp [hp] at this
    | some i =>
      obtain ⟨pre, first, suf, hsplit, _, hpre, hfirst, hdrop⟩ :=
        findIdx?_some_split _ lines i hfind
      refine ⟨pre, first, suf, hsplit, ?_, ?_, ?_⟩
      · intro l hl
        rw [← List.isPrefixOf_iff_prefix]
        simp [hpre l hl]
      · rw [← List.isPrefixOf_iff_prefix]
        exact hfirst
      · rw [trimHeader, hfind]
        exact hdrop

/-- Witness for C6: with a junk line before the marked line, trimming
keeps the marked line and the data line after it. -/
theorem trimHeader_spec_witness :
    ∃ pre first suf,
      [[74], [32, 32, 35, 32, 83], [68]] = pre ++ first :: suf
      ∧ (∀ l ∈ pre, ¬ HASH <+: l)
      ∧ HASH <+: first
      ∧ trimHeader [[74], [32, 32, 35, 32, 83], [68]] = first :: suf :=
  (trimHeader_spec [[74], [32, 32, 35, 32, 83], [68]]).2
    ⟨[32, 32, 35, 32, 83], by simp, by decide⟩

/-- The blank line `"    "` (four spaces) checked by the trailing trim in
`fetch_and_write`. -/
def BLANK : List Nat := [32, 32, 32, 32]

/-- The prompt line `"    REQ   "` checked by the trailing trim in
`fetch_and_write`. -/
def REQ_PROMPT : List Nat := [32, 32, 32, 32, 82, 69, 81, 32, 32, 32]

/-- The trailing-prompt trim of `fetch_and_write`: when there are at least
two lines and the last two are exactly the blank line and the request
prompt, drain both. -/
def trimTrailingPrompt (lines : List (List Nat)) : List (List Nat) :=
  if 2 ≤ lines.length
      ∧ lines.getD (lines.length - 2) [] = BLANK
      ∧ lines.getD (lines.length - 1) [] = REQ_PROMPT
  then lines.take (lines.length - 2)
  else lines

theorem trimTrailing_cond_iff (lines : List (List Nat)) :
    (2 ≤ lines.length
      ∧ lines.getD (lines.length - 2) [] = BLANK
      ∧ lines.getD (lines.length - 1) [] = REQ_PROMPT)
    ↔ ∃ pre, lines = pre ++ [BLANK, REQ_PROMPT] := by
  constructor
  · rintro ⟨hlen, h2, h1⟩
    refine ⟨lines.take (lines.length - 2), ?_⟩
    have hsplit := List.take_append_drop (lines.length - 2) lines
    have hdlen : (lines.drop (lines.length - 2)).length = 2 := by
      rw [List.length_drop]
      omega
    obtain ⟨u, v, huv⟩ := List.length_eq_two.mp hdlen
    have hu : lines[lines.length - 2]? = some u := by
      have := List.getElem?_drop lines (lines.length - 2) 0
      rw [huv] at this
      simpa using this.symm
    have hv : lines[lines.length - 1]? = some v := by
      have := List.getElem?_drop lines (lines.length - 2) 1
      rw [huv] at this
      have harith : lines.length - 2 + 1 = lines.length - 1 := by omega
      rw [harith] at this
      simpa using this.symm
    have hub : u = BLANK := by
      rw [List.getD_eq_getElem?_getD, hu] at h2
      simpa using h2
    have hvr : v = REQ_PROMPT := by
      rw [List.getD_eq_getElem?_getD, hv] at h1
      simpa using h1
    conv_lhs => rw [← hsplit]
    rw [huv, hub, hvr]
  · rintro ⟨pre, rfl⟩
    have hlen : (pre ++ [BLANK, REQ_PROMPT]).length = pre.length + 2 := by
      simp
    have ha : (pre ++ [BLANK, REQ_PROMPT]).length - 2 = pre.length := by
      simp
    have hb : (pre ++ [BLANK, REQ_PROMPT]).length - 1 = pre.length + 1 := by
      simp
    refine ⟨by simp, ?_, ?_⟩
    · rw [ha, List.getD_eq_getElem?_getD,
        List.getElem?_append_right (Nat.le_refl _)]
      simp
    · rw [hb, List.getD_eq_getElem?_getD,
        List.getElem?_append_right (by simp)]
      simp

/-- Claim C7: the final two lines are dropped exactly when they are the
blank four-space line followed by the `"    REQ   "` line; for any other
shape (including fewer than two lines) the list is unchanged. -/
theorem trimTrailingPrompt_spec (lines : List (List Nat)) :
    (∀ pre, lines = pre ++ [BLANK, REQ_PROMPT] →
      trimTrailingPrompt lines = pre)
    ∧ ((¬ ∃ pre, lines = pre ++ [BLANK, REQ_PROMPT]) →
      trimTrailingPrompt lines = lines) := by
  constructor
  · rintro pre rfl
    rw [trimTrailingPrompt,
      if_pos ((trimTrailing_cond_iff _).mpr ⟨pre, rfl⟩)]
    have ha : (pre ++ [BLANK, REQ_PROMPT]).length - 2 = pre.length := by
      simp
    rw [ha]
    exact List.take_left pre [BLANK, REQ_PROMPT]
  · intro hnone
    rw [trimTrailingPrompt, if_neg]
    intro hcond
    exact hnone ((trimTrailing_cond_iff _).mp hcond)

/-- Witness for C7: a data line followed by the blank line and the prompt
line trims to just the data line. -/
theorem trimTrailingPrompt_spec_witness :
    trimTrailingPrompt [[68], BLANK, REQ_PROMPT] = [[68]] :=
  (trimTrailingPrompt_spec [[68], BLANK, REQ_PROMPT]).1 [[68]] rfl

/-- Externally visible actions of one `fetch` run: an outbound send and a
matched prompt together with the buffer segment its wait returned. -/
inductive Action where
  | sent (data : List Nat)
  | matched (prompt : List Nat) (segment : List Nat)
deriving DecidableEq

/-- The step-identifying contexts `fetch` attaches to a failure:
"sending {send}" and "waiting for {expect}". -/
inductive StepError where
  | sendFailed (data : List Nat)
  | promptFailed (prompt : List Nat) (e : RunError)
deriving DecidableEq

/-- Outcome of `Fetcher::fetch` on a finite environment: success with the
accumulated output, failure with the failing step's context, or `pending`
when the event trace ran out mid-wait (the run is suspended with the
console in the state reached so far). -/
inductive FetchOutcome where
  | ok (output : List Nat) (trace : List Action) (c : Console)
      (writes : List Bool) (events : List ReadEvent)
  | err (e : StepError) (trace : List Action)
  | pending (c : Console) (trace : List Action)
deriving DecidableEq

/-- `Fetcher::fetch`: replay the interaction steps in order over the
console — send the outbound bytes (consuming one write outcome from the
environment, success by default), await the expected prompt, and append
the drained segment to the running output; any failure aborts with the
step's context.  A trace of the performed actions is recorded alongside. -/
def fetch : List (List Nat × List Nat) → Console → List Bool →
    List ReadEvent → FetchOutcome
  | [], c, ws, evs => .ok [] [] c ws evs
  | (sd, expect) :: rest, c, ws, evs =>
      match send c sd (ws.headD true) with
      | (_, some _) => .err (.sendFailed sd) []
      | (c1, none) =>
        match run_until_human_prompt expect c1.buffer [] evs with
        | .pending b _ => .pending ⟨b⟩ [.sent sd]
        | .err e _ _ => .err (.promptFailed expect e) [.sent sd]
        | .ok drained b evs2 _ =>
          match fetch rest ⟨b⟩ ws.tail evs2 with
          | .ok out tr c2 ws2 evs3 =>
              .ok (drained ++ out)
                (.sent sd :: .matched expect drained :: tr) c2 ws2 evs3
          | .err e tr => .err e (.sent sd :: .matched expect drained :: tr)
          | .pending cp tr =>
              .pending cp (.sent sd :: .matched expect drained :: tr)

/-- The interleaved action trace of a fully ordered replay: for each step
in order, its send followed by its matched prompt with that step's
segment. -/
def mkTrace : List (List Nat × List Nat) → List (List Nat) → List Action
  | (sd, ex) :: ints, seg :: segs =>
      .sent sd :: .matched ex seg :: mkTrace ints segs
  | _, _ => []

theorem fetch_ok_char :
    ∀ (ints : List (List Nat × List Nat)) (c : Console) (ws : List Bool)
      (evs : List ReadEvent) (out : List Nat) (tr : List Action)
      (c' : Console) (ws' : List Bool) (evs' : List ReadEvent),
      fetch ints c ws evs = .ok out tr c' ws' evs' →
      ∃ segs : List (List Nat), segs.length = ints.length
        ∧ out = segs.flatten ∧ tr = mkTrace ints segs := by
  intro ints
  induction ints with
  | nil =>
    intro c ws evs out tr c' ws' evs' h
    rw [fetch] at h
    cases h
    exact ⟨[], rfl, rfl, rfl⟩
  | cons step rest ih =>
    obtain ⟨sd, ex⟩ := step
    intro c ws evs out tr c' ws' evs' h
    rw [fetch] at h
    split at h
    · cases h
    · split at h
      · cases h
      · cases h
      · split at h
        · rename_i x1 c1 hsend x2 drained b evs2 w hrun x3 out2 tr2 c2 ws2
            evs3 hrec
          cases h
          obtain ⟨segs, hlen, hout, htr⟩ :=
            ih _ _ _ _ _ _ _ _ hrec
          exact ⟨drained :: segs, by simp [hlen], by simp [hout],
            by simp [mkTrace, htr]⟩
        · cases h
        · cases h

theorem fetch_err_char :
    ∀ (ints : List (List Nat × List Nat)) (c : Console) (ws : List Bool)
      (evs : List ReadEvent) (e : StepError) (tr : List Action),
      fetch ints c ws evs = .err e tr →
      ∃ (k : Nat) (segs : List (List Nat)), k < ints.length
        ∧ segs.length = k
        ∧ ((e = StepError.sendFailed (ints.getD k ([], [])).1
              ∧ tr = mkTrace (ints.take k) segs)
          ∨ (∃ re, e = StepError.promptFailed (ints.getD k ([], [])).2 re
              ∧ tr = mkTrace (ints.take k) segs
                ++ [Action.sent (ints.getD k ([], [])).1])) := by
  intro ints
  induction ints with
  | nil =>
    intro c ws evs e tr h
    rw [fetch] at h
    cases h
  | cons step rest ih =>
    obtain ⟨sd, ex⟩ := step
    intro c ws evs e tr h
    rw [fetch] at h
    split at h
    · cases h
      exact ⟨0, [], by simp, rfl, Or.inl ⟨by simp, rfl⟩⟩
    · split at h
      · cases h
      · rename_i x1 c1 hsend x2 re b w hrun
        cases h
        exact ⟨0, [], by simp, rfl,
          Or.inr ⟨re, by simp, by simp [mkTrace]⟩⟩
      · split at h
        · cases h
        · rename_i x1 c1 hsend x2 drained b evs2 w hrun x3 e2 tr2 hrec
          cases h
          obtain ⟨k, segs, hk, hlen, hdisj⟩ := ih _ _ _ _ _ hrec
          refine ⟨k + 1, drained :: segs, by simpa using hk,
            by simp [hlen], ?_⟩
          rcases hdisj with ⟨he, htr⟩ | ⟨re, he, htr⟩
          · exact Or.inl ⟨by simpa using he, by simp [mkTrace, htr]⟩
          · exact Or.inr ⟨re, by simpa using he,
              by simp [mkTrace, htr]⟩
        · cases h

/-- Claim C8: a `fetch` replays its steps strictly in order — the
recorded action trace is exactly send, matched prompt, send, matched
prompt, … in step order — and on success the output is the concatenation,
in step order, of the segments returned by each prompt wait; on failure
the error context names the failing step's send or awaited prompt, and
the trace shows that no later step ran. -/
theorem fetch_spec (ints : List (List Nat × List Nat)) (c : Console)
    (ws : List Bool) (evs : List ReadEvent) :
    (∀ out tr c' ws' evs', fetch ints c ws evs = .ok out tr c' ws' evs' →
      ∃ segs : List (List Nat), segs.length = ints.length
        ∧ out = segs.flatten ∧ tr = mkTrace ints segs)
    ∧ (∀ e tr, fetch ints c ws evs = .err e tr →
      ∃ (k : Nat) (segs : List (List Nat)), k < ints.length
        ∧ segs.length = k
        ∧ ((e = StepError.sendFailed (ints.getD k ([], [])).1
              ∧ tr = mkTrace (ints.take k) segs)
          ∨ (∃ re, e = StepError.promptFailed (ints.getD k ([], [])).2 re
              ∧ tr = mkTrace (ints.take k) segs
                ++ [Action.sent (ints.getD k ([], [])).1]))) := by
  constructor
  · intro out tr c' ws' evs' h
    exact fetch_ok_char ints c ws evs out tr c' ws' evs' h
  · intro e tr h
    exact fetch_err_char ints c ws evs e tr h

/-- Witness for C8: a single-step fetch that completes produces one
segment, output equal to it, and the two-action trace send-then-match. -/
theorem fetch_spec_witness :
    ∃ segs : List (List Nat), segs.length = 1
      ∧ ([97, 10, 10, 33] : List Nat) = segs.flatten
      ∧ [Action.sent [97, 10], Action.matched [33] [97, 10, 10, 33]]
        = mkTrace [([97, 10], [33])] segs :=
  (fetch_spec [([97, 10], [33])] ⟨[]⟩ [] [.recv [10, 33]]).1
    [97, 10, 10, 33]
    [Action.sent [97, 10], Action.matched [33] [97, 10, 10, 33]]
    ⟨[]⟩ [] [] (by decide)

/-- The operator's `"r"` choice in the `main.rs` cancellation menu: the
suspended `fetch_and_write` future is dropped and a fresh `fetch` of the
same interaction list starts over on the same console — the output
accumulator starts empty again, but the console keeps whatever buffer the
abandoned attempt left behind (nothing clears `Console::buffer`). -/
def restartFetcher (ints : List (List Nat × List Nat))
    (cAbandoned : Console) (ws : List Bool) (evs : List ReadEvent) :
    FetchOutcome :=
  fetch ints cAbandoned ws evs

/-- Counterexample for C9: an attempt suspends mid-wait having read the
byte 120 into the session buffer; the restarted attempt's output contains
that byte — the partial session buffer is carried into the new attempt,
not discarded. -/
theorem restart_discard_counterexample :
    fetch [([97, 10], [33])] ⟨[]⟩ [] [.recv [120]]
      = .pending ⟨[97, 10, 120]⟩ [.sent [97, 10]]
    ∧ restartFetcher [([97, 10], [33])] ⟨[97, 10, 120]⟩ [] [.recv [10, 33]]
      = .ok [97, 10, 120, 97, 10, 10, 33]
          [.sent [97, 10], .matched [33] [97, 10, 120, 97, 10, 10, 33]]
          ⟨[]⟩ [] []
    ∧ (120 : Nat) ∈ ([97, 10, 120, 97, 10, 10, 33] : List Nat) := by
  decide

/-- Claim C9 (amended): choosing `"r"` restarts the same Task Runner from
its first interaction step with a fresh, empty output accumulator, so the
abandoned attempt's partial accumulated output is discarded; but the
Session's buffer from the abandoned attempt is retained, and when the
restarted fetch succeeds those buffered bytes appear at the front of its
output, inside the first step's drained segment. -/
theorem restart_retains_session_buffer
    (sd ex : List Nat) (rest : List (List Nat × List Nat))
    (cAbandoned : Console) (ws : List Bool) (evs : List ReadEvent)
    (out : List Nat) (tr : List Action) (c' : Console) (ws' : List Bool)
    (evs' : List ReadEvent)
    (hok : restartFetcher ((sd, ex) :: rest) cAbandoned ws evs
      = .ok out tr c' ws' evs') :
    ∃ restOut, out = cAbandoned.buffer ++ sd ++ restOut := by
  rw [restartFetcher, fetch] at hok
  split at hok
  · cases hok
  · split at hok
    · cases hok
    · cases hok
    · split at hok
      · rename_i x1 c1 hsend x2 drained b evs2 w hrun x3 out2 tr2 c2 ws2
          evs3 hrec
        cases hok
        have hc1 : c1 = Console.mk (cAbandoned.buffer ++ sd) := by
          cases hw : ws.headD true with
          | true =>
            rw [hw] at hsend
            simp only [send] at hsend
            exact (Prod.mk.injEq _ _ _ _ ▸ hsend).1.symm
          | false =>
            rw [hw] at hsend
            simp [send] at hsend
        obtain ⟨-, -, consumed, -, hd⟩ :=
          run_ok_characterization ex evs c1.buffer [] w drained b evs2 hrun
        refine ⟨chunkBytes consumed ++ out2, ?_⟩
        rw [hd, hc1]
        simp
      · cases hok
      · cases hok

/-- Witness for C9 (amended): in the concrete restart scenario the
restarted attempt's output starts with the abandoned buffer
`[97, 10, 120]` followed by the echoed send. -/
theorem restart_retains_session_buffer_witness :
    ∃ restOut, ([97, 10, 120, 97, 10, 10, 33] : List Nat)
      = [97, 10, 120] ++ [97, 10] ++ restOut :=
  restart_retains_session_buffer [97, 10] [33] [] ⟨[97, 10, 120]⟩ []
    [.recv [10, 33]] [97, 10, 120, 97, 10, 10, 33]
    [.sent [97, 10], .matched [33] [97, 10, 120, 97, 10, 10, 33]]
    ⟨[]⟩ [] [] (by decide)

end DMS10
